import Mathlib

/-!
Shallow embedding of the iteration core of the labelbox-python repository:
`src/labelbox/data/generator.py` (ThreadSafeGen, PrefetchGenerator) and
`src/labelbox_dev/pagination.py` (BasePaginator, IdentifierPaginator).

Python machine state is made explicit: the bounded work queue is a list of
queue items, blocking operations that can never be unblocked are represented
by explicit markers (`none`, `blocked`), and the abstract `_process` hook is
a function parameter returning an outcome (normal value, raised exception,
or a returned `None`).
-/

/-! ## PrefetchGenerator: the transform outcome and queue item model -/

/-- Outcome of one call to the abstract `_process(value)` hook of
`PrefetchGenerator` (generator.py line 69): a normal return value, a raised
exception (carrying its message), or a returned Python `None`. -/
inductive ProcOutcome (β : Type) where
  | ok (value : β)
  | exn (msg : String)
  | nullResult
deriving DecidableEq, Repr

/-- Items that can sit on `self.queue`. `fill_queue` (generator.py lines
72-81) enqueues processed values and, on failure, a wrapping `ValueError`;
a literal Python `None` on the queue is representable (the consumer loop at
lines 92-102 handles it) but, as proved below, never produced. -/
inductive QItem (β : Type) where
  | val (value : β)
  | errSentinel (msg : String)
  | noneSentinel
deriving DecidableEq, Repr

/-- Message of the wrapping error built at generator.py line 80:
`ValueError("Unexpected exception while filling queue. %r", e)`. The raised
object is a fresh `ValueError` whose payload references the inner error `e`;
we model it as the fixed prefix followed by the inner message. -/
def wrapValueError (m : String) : String :=
  "Unexpected exception while filling queue. %r: " ++ m

/-- The sequence of `queue.put` operations performed by
`PrefetchGenerator.fill_queue` (generator.py lines 72-81): each source item
is processed; a normal value is enqueued; a returned `None` raises
`ValueError("Unexpected None")` inside the `try`, so both it and a raised
exception are caught by the single `except` and a wrapping `ValueError` is
enqueued, after which the loop is over (the function returns). -/
def fillQueue (process : α → ProcOutcome β) : List α → List (QItem β)
  | [] => []
  | x :: xs =>
    match process x with
    | .ok v => .val v :: fillQueue process xs
    | .exn m => [.errSentinel (wrapValueError m)]
    | .nullResult => [.errSentinel (wrapValueError "Unexpected None")]

/-- Values of the successfully transformed items, in source order. -/
def okValues (process : α → ProcOutcome β) (items : List α) : List β :=
  items.filterMap fun x =>
    match process x with
    | .ok v => some v
    | _ => none

/-- Python `Queue(maxsize)` is unbounded when `maxsize <= 0` and otherwise
blocks `put` at `maxsize` items. With `multithread=False`, `fill_queue` runs
inside `__init__` (generator.py line 67) with no consumer alive, so the
whole construction completes exactly when every `put` fits: the queue is
unbounded or the number of enqueued entries stays within capacity. -/
def constructionCompletes (puts : List (QItem β)) (capacity : Nat) : Bool :=
  capacity == 0 || decide (puts.length ≤ capacity)

/-! ## PrefetchGenerator: the single-threaded consumer -/

/-- Consumer-visible state of a `PrefetchGenerator`: the queue contents,
the `done` flag (generator.py line 54) and the `completed_threads` counter
(line 51). -/
structure ConsumerState (β : Type) where
  queue : List (QItem β)
  done : Bool
  completedThreads : Nat
deriving DecidableEq, Repr

/-- Result of one `__next__` call on a single-threaded `PrefetchGenerator`.
`yieldVal` is a normal yield; `stopIteration` is `raise StopIteration`;
`raiseError` is `raise value` on a dequeued `ValueError`; `yieldErrObj` is
the quirk path where a `ValueError` dequeued inside the `while value is
None` loop is returned as an ordinary value (the `isinstance` check at line
89 runs only once, before the loop); `blockedForever` is a `queue.get()` on
an empty queue with no live producer. -/
inductive NextResult (β : Type) where
  | yieldVal (value : β)
  | stopIteration
  | raiseError (msg : String)
  | yieldErrObj (msg : String)
  | blockedForever
deriving DecidableEq, Repr

/-- The `while value is None` loop of `__next__` in the `multithread=False`
branch (generator.py lines 92-95): keep calling `queue.get()` until a
non-`None` value appears; the surrounding `isinstance(value, ValueError)`
check is not re-run, so an error sentinel found here is returned as a value. -/
def skipNones : List (QItem β) → Bool → Nat → NextResult β × ConsumerState β
  | [], d, c => (.blockedForever, ⟨[], d, c⟩)
  | .noneSentinel :: rest, d, c => skipNones rest d c
  | .val v :: rest, d, c => (.yieldVal v, ⟨rest, d, c⟩)
  | .errSentinel m :: rest, d, c => (.yieldErrObj m, ⟨rest, d, c⟩)

/-- One `__next__` call (generator.py lines 86-103) with
`multithread=False`: if `done` is set or the queue is momentarily empty,
raise `StopIteration`; otherwise dequeue one value; a dequeued `ValueError`
is raised; a dequeued `None` enters the polling loop. -/
def stNext (s : ConsumerState β) : NextResult β × ConsumerState β :=
  if s.done || s.queue.isEmpty then (.stopIteration, s)
  else
    match s.queue with
    | [] => (.stopIteration, s)
    | .val v :: rest => (.yieldVal v, ⟨rest, s.done, s.completedThreads⟩)
    | .errSentinel m :: rest => (.raiseError m, ⟨rest, s.done, s.completedThreads⟩)
    | .noneSentinel :: rest => skipNones rest s.done s.completedThreads

/-- Observable outcome of iterating a single-threaded `PrefetchGenerator`
to the end: the yielded values plus how iteration ended. -/
inductive DrainResult (β : Type) where
  | finished (yielded : List β)
  | errored (yielded : List β) (msg : String)
  | quirkErrObj (yielded : List β) (msg : String)
  | blocked (yielded : List β)
  | outOfFuel (yielded : List β)
deriving DecidableEq, Repr

/-- Repeatedly call `stNext` until the stream stops, errors or blocks,
collecting the yielded values. `fuel` bounds the number of calls; every
theorem below supplies enough fuel for the run to complete. -/
def stDrainAux : Nat → ConsumerState β → List β → DrainResult β × ConsumerState β
  | 0, s, acc => (.outOfFuel acc, s)
  | fuel + 1, s, acc =>
    match stNext s with
    | (.yieldVal v, s1) => stDrainAux fuel s1 (acc ++ [v])
    | (.stopIteration, s1) => (.finished acc, s1)
    | (.raiseError m, s1) => (.errored acc m, s1)
    | (.yieldErrObj m, s1) => (.quirkErrObj acc m, s1)
    | (.blockedForever, s1) => (.blocked acc, s1)

/-- Full consumer run; each `stNext` that continues the run consumes at
least one queue entry, so `queue.length + 1` calls always suffice. -/
def stDrain (s : ConsumerState β) : DrainResult β × ConsumerState β :=
  stDrainAux (s.queue.length + 1) s []

/-- The whole single-threaded lifecycle of a `PrefetchGenerator`
(generator.py lines 40-67 with `multithread=False`, then iteration):
`__init__` runs `fill_queue` synchronously; if some `queue.put` can never
complete (bounded queue already full, no consumer alive), construction
never returns, modeled as `none`. Otherwise the consumer drains the queue. -/
def prefetchRun (process : α → ProcOutcome β) (items : List α) (capacity : Nat) :
    Option (DrainResult β × ConsumerState β) :=
  let puts := fillQueue process items
  if constructionCompletes puts capacity then some (stDrain ⟨puts, false, 0⟩) else none

/-! ## Helper lemmas for the single-threaded PrefetchGenerator -/

/-- When every item processes successfully, `fill_queue` enqueues exactly
the processed values, in source order. -/
theorem fillQueue_all_ok (process : α → ProcOutcome β) (f : α → β) :
    ∀ items : List α, (∀ x ∈ items, process x = .ok (f x)) →
      fillQueue process items = (items.map f).map QItem.val := by
  intro items
  induction items with
  | nil => intro _; rfl
  | cons x xs ih =>
    intro h
    have hx : process x = .ok (f x) := h x (List.mem_cons_self x xs)
    simp only [fillQueue, hx, List.map_cons]
    exact congrArg (QItem.val (f x) :: ·) (ih fun y hy => h y (List.mem_cons_of_mem x hy))

/-- When the prefix processes successfully and item `x` fails with message
`m`, `fill_queue` enqueues the prefix values then one wrapped error
sentinel, and nothing for the remaining items. -/
theorem fillQueue_prefix_err (process : α → ProcOutcome β) (f : α → β)
    (x : α) (post : List α) (m : String) (hx : process x = .exn m) :
    ∀ pre : List α, (∀ y ∈ pre, process y = .ok (f y)) →
      fillQueue process (pre ++ x :: post) =
        (pre.map f).map QItem.val ++ [.errSentinel (wrapValueError m)] := by
  intro pre
  induction pre with
  | nil => intro _; simp [fillQueue, hx]
  | cons y ys ih =>
    intro h
    have hy : process y = .ok (f y) := h y (List.mem_cons_self y ys)
    simp only [List.cons_append, fillQueue, hy, List.map_cons]
    exact congrArg (QItem.val (f y) :: ·) (ih fun z hz => h z (List.mem_cons_of_mem y hz))

/-- Dequeuing from a non-done state whose head is a value yields it. -/
theorem stNext_val (v : β) (q : List (QItem β)) (c : Nat) :
    stNext ⟨QItem.val v :: q, false, c⟩ = (.yieldVal v, ⟨q, false, c⟩) := by
  simp [stNext]

/-- Dequeuing from a non-done state whose head is an error sentinel raises
the sentinel error. -/
theorem stNext_err (m : String) (q : List (QItem β)) (c : Nat) :
    stNext ⟨QItem.errSentinel m :: q, false, c⟩ = (.raiseError m, ⟨q, false, c⟩) := by
  simp [stNext]

/-- A momentarily empty queue makes `__next__` raise `StopIteration`. -/
theorem stNext_empty (d : Bool) (c : Nat) :
    stNext (⟨[], d, c⟩ : ConsumerState β) = (.stopIteration, ⟨[], d, c⟩) := by
  simp [stNext]

/-- Unfolding step of the consumer run on a yield. -/
theorem stDrainAux_yield {s s1 : ConsumerState β} {v : β}
    (h : stNext s = (.yieldVal v, s1)) (fuel : Nat) (acc : List β) :
    stDrainAux (fuel + 1) s acc = stDrainAux fuel s1 (acc ++ [v]) := by
  simp only [stDrainAux, h]

/-- Unfolding step of the consumer run on `StopIteration`. -/
theorem stDrainAux_stop {s s1 : ConsumerState β}
    (h : stNext s = (.stopIteration, s1)) (fuel : Nat) (acc : List β) :
    stDrainAux (fuel + 1) s acc = (.finished acc, s1) := by
  simp only [stDrainAux, h]

/-- Unfolding step of the consumer run on a raised error. -/
theorem stDrainAux_raise {s s1 : ConsumerState β} {m : String}
    (h : stNext s = (.raiseError m, s1)) (fuel : Nat) (acc : List β) :
    stDrainAux (fuel + 1) s acc = (.errored acc m, s1) := by
  simp only [stDrainAux, h]

/-- A queue holding only values drains to exactly those values in FIFO
order, ending via the empty-queue check with `done` still false and the
counter untouched. -/
theorem stDrain_vals (c : Nat) :
    ∀ (vs : List β) (acc : List β),
      stDrainAux (vs.length + 1) ⟨vs.map QItem.val, false, c⟩ acc =
        (.finished (acc ++ vs), ⟨[], false, c⟩) := by
  intro vs
  induction vs with
  | nil =>
    intro acc
    rw [show (([] : List β).length + 1) = 0 + 1 from rfl,
      show ((([] : List β).map QItem.val) : List (QItem β)) = [] from rfl,
      stDrainAux_stop (stNext_empty false c) 0 acc]
    simp
  | cons v vt ih =>
    intro acc
    rw [show ((v :: vt).length + 1) = (vt.length + 1) + 1 from rfl, List.map_cons,
      stDrainAux_yield (stNext_val v (vt.map QItem.val) c) (vt.length + 1) acc,
      ih (acc ++ [v])]
    simp

/-- A queue holding values followed by one error sentinel drains to those
values and then raises the sentinel error on the next pull; the already
yielded values are kept. -/
theorem stDrain_vals_err (c : Nat) (m : String) :
    ∀ (vs : List β) (acc : List β),
      stDrainAux (vs.length + 2) ⟨vs.map QItem.val ++ [.errSentinel m], false, c⟩ acc =
        (.errored (acc ++ vs) m, ⟨[], false, c⟩) := by
  intro vs
  induction vs with
  | nil =>
    intro acc
    rw [show (([] : List β).length + 2) = 1 + 1 from rfl]
    rw [show ((([] : List β).map QItem.val ++ [QItem.errSentinel m]) : List (QItem β)) =
      [QItem.errSentinel m] from rfl]
    rw [stDrainAux_raise (stNext_err m [] c) 1 acc]
    simp
  | cons v vt ih =>
    intro acc
    rw [show ((v :: vt).length + 2) = (vt.length + 2) + 1 from rfl, List.map_cons,
      List.cons_append,
      stDrainAux_yield (stNext_val v (vt.map QItem.val ++ [QItem.errSentinel m]) c)
        (vt.length + 2) acc,
      ih (acc ++ [v])]
    simp

/-- Claim C1: for every finite source and `multithread=False`, provided
construction completes (the enqueued entries fit the queue capacity, or the
queue is unbounded), the sequence of items yielded by iterating the
`PrefetchGenerator` equals, in both set and order, the sequence of
successfully transformed source items: each source item passed through
`_process`, none omitted, source order preserved. -/
theorem prefetch_single_thread_yields_in_order
    (process : α → ProcOutcome β) (f : α → β) (items : List α) (capacity : Nat)
    (hproc : ∀ x ∈ items, process x = .ok (f x))
    (hfit : constructionCompletes (fillQueue process items) capacity = true) :
    prefetchRun process items capacity =
      some (.finished (items.map f), ⟨[], false, 0⟩) := by
  have hfill := fillQueue_all_ok process f items hproc
  unfold prefetchRun
  rw [hfill] at hfit ⊢
  rw [if_pos hfit]
  unfold stDrain
  rw [show ((items.map f).map QItem.val : List (QItem β)).length = (items.map f).length by
    simp]
  rw [stDrain_vals 0 (items.map f) []]
  simp

/-- Witness for C1: a 3-item in-memory source with capacity 20 and the
transform adding 10 yields all three transformed items in order. -/
theorem prefetch_single_thread_yields_in_order_witness :
    (∀ x ∈ [1, 2, 3], (fun n : Nat => ProcOutcome.ok (n + 10)) x = .ok (x + 10)) ∧
    constructionCompletes
      (fillQueue (fun n : Nat => ProcOutcome.ok (n + 10)) [1, 2, 3]) 20 = true ∧
    prefetchRun (fun n : Nat => ProcOutcome.ok (n + 10)) [1, 2, 3] 20 =
      some (.finished [11, 12, 13], ⟨[], false, 0⟩) :=
  ⟨by decide, by decide,
    prefetch_single_thread_yields_in_order
      (fun n : Nat => ProcOutcome.ok (n + 10)) (fun n => n + 10) [1, 2, 3] 20
      (by decide) (by decide)⟩

/-! ## Claims C2, C3, C5, C9: construction blocking and error delivery -/

/-- Claim C2, counterexample: the claim predicts that for a source yielding
more items than the queue capacity, filling blocks only until the consumer
drains the queue, so that construction completes and iteration still
delivers the items. In the code, with `multithread=False` the fill loop runs
to completion inside `__init__` before any consumer exists, so the
`queue.put` of the item past capacity blocks forever: with capacity 1 and
the 2-item source `[1, 2]` under the identity transform, construction never
returns (modeled as `none`), and in particular the run is not the finished
run over both items that the claim predicts. -/
theorem prefetch_overfull_construction_blocks_cex :
    prefetchRun (fun n : Nat => ProcOutcome.ok n) [1, 2] 1 = none ∧
    prefetchRun (fun n : Nat => ProcOutcome.ok n) [1, 2] 1 ≠
      some (.finished [1, 2], ⟨[], false, 0⟩) := by
  constructor
  · rfl
  · decide

/-- Claim C2, amended: with `multithread=False` the fill step runs
synchronously and fully before the first item is yielded, and whatever it
enqueued is then consumed; but construction blocks forever (never returning
a generator) exactly when the queue is bounded (`prefetch_limit` positive;
`Queue(0)` is unbounded in Python) and the fill step performs more `put`
operations than the capacity — the consumer cannot drain a queue during the
synchronous fill, so a source yielding more items than the capacity
deadlocks `__init__` instead of interleaving with consumption. -/
theorem prefetch_construction_completes_iff
    (process : α → ProcOutcome β) (items : List α) (capacity : Nat) :
    (prefetchRun process items capacity = none ↔
      0 < capacity ∧ capacity < (fillQueue process items).length) ∧
    (∀ r, prefetchRun process items capacity = some r →
      r = stDrain ⟨fillQueue process items, false, 0⟩) := by
  constructor
  · unfold prefetchRun constructionCompletes
    by_cases hc : capacity = 0
    · subst hc; simp
    · have h0 : 0 < capacity := Nat.pos_of_ne_zero hc
      by_cases hle : (fillQueue process items).length ≤ capacity
      · simp [hc, hle, Nat.not_lt.mpr hle]
      · simp [hc, hle, h0, Nat.lt_of_not_le hle]
  · intro r hr
    unfold prefetchRun at hr
    by_cases h : constructionCompletes (fillQueue process items) capacity = true
    · rw [if_pos h] at hr
      exact (Option.some_inj.mp hr).symm
    · rw [if_neg h] at hr
      exact absurd hr (by simp)

/-- Witness for the amended C2: with capacity 1 and two successfully
processed items, construction never completes. -/
theorem prefetch_construction_completes_iff_witness :
    prefetchRun (fun n : Nat => ProcOutcome.ok (n + 10)) [1, 2] 1 = none :=
  (prefetch_construction_completes_iff
    (fun n : Nat => ProcOutcome.ok (n + 10)) [1, 2] 1).1.mpr (by decide)

/-- Transform raising an exception with message `boom` on the item `2`. -/
def procBoomAt2 : Nat → ProcOutcome Nat :=
  fun n => if n = 2 then .exn "boom" else .ok (n + 10)

/-- Claim C3, counterexample: the claim says that after the pre-failure
items the consumer receives the original error. On the source `[1, 2, 3]`
whose transform raises `ValueError` with message `boom` on item `2`, the
consumer first receives the one successfully processed item `11` and then
has an error raised on the next pull — but the raised object is the fresh
wrapping `ValueError` built at generator.py line 80, whose message differs
from the original message `boom`, not the original exception. -/
theorem prefetch_error_wrapped_cex :
    prefetchRun procBoomAt2 [1, 2, 3] 20 =
      some (.errored [11] (wrapValueError "boom"), ⟨[], false, 0⟩) ∧
    wrapValueError "boom" ≠ "boom" := by
  constructor
  · rfl
  · decide

/-- Claim C3, amended: if `_process` raises on the k-th item, no exception
surfaces on the producer side — `fill_queue` returns normally after
enqueuing the successfully processed earlier items followed by one wrapping
`ValueError` whose payload references the original error; the consumer
successfully receives every item enqueued before the failure, and on the
next pull after those the wrapping `ValueError` (not the original exception
object) is raised to the consumer; items already dequeued remain in the
yielded list and are not rolled back. -/
theorem prefetch_error_deferred_wrapped
    (process : α → ProcOutcome β) (f : α → β) (pre post : List α) (x : α)
    (m : String) (capacity : Nat)
    (hpre : ∀ y ∈ pre, process y = .ok (f y))
    (hx : process x = .exn m)
    (hfit : constructionCompletes (fillQueue process (pre ++ x :: post)) capacity = true) :
    fillQueue process (pre ++ x :: post) =
      (pre.map f).map QItem.val ++ [.errSentinel (wrapValueError m)] ∧
    prefetchRun process (pre ++ x :: post) capacity =
      some (.errored (pre.map f) (wrapValueError m), ⟨[], false, 0⟩) := by
  have hfill := fillQueue_prefix_err process f x post m hx pre hpre
  refine ⟨hfill, ?_⟩
  unfold prefetchRun
  rw [hfill] at hfit ⊢
  rw [if_pos hfit]
  unfold stDrain
  rw [show (((pre.map f).map QItem.val ++ [QItem.errSentinel (wrapValueError m)]) :
      List (QItem β)).length = (pre.map f).length + 1 by simp]
  rw [show (pre.map f).length + 1 + 1 = (pre.map f).length + 2 from rfl]
  rw [stDrain_vals_err 0 (wrapValueError m) (pre.map f) []]
  simp

/-- Witness for the amended C3 at the concrete failing run of
`prefetch_error_wrapped_cex`. -/
theorem prefetch_error_deferred_wrapped_witness :
    fillQueue procBoomAt2 ([1] ++ 2 :: [3]) =
      ([1].map (fun n => n + 10)).map QItem.val ++
        [.errSentinel (wrapValueError "boom")] ∧
    prefetchRun procBoomAt2 ([1] ++ 2 :: [3]) 20 =
      some (.errored ([1].map (fun n => n + 10)) (wrapValueError "boom"), ⟨[], false, 0⟩) :=
  prefetch_error_deferred_wrapped procBoomAt2 (fun n => n + 10) [1] [3] 2 "boom" 20
    (by decide) (by decide) (by decide)

/-- Transform returning Python `None` on the item `2`. -/
def procNullAt2 : Nat → ProcOutcome Nat :=
  fun n => if n = 2 then .nullResult else .ok (n + 10)

/-- Claim C5: for every item on which `_process` returns a null/empty
result, iteration terminates with an error delivered to the consumer —
`fill_queue` raises `ValueError("Unexpected None")` internally, which the
shared handler wraps and enqueues exactly as it would a raised exception
(second conjunct: any transform that instead raised an exception with the
same message produces the identical queue contents) — rather than silently
omitting that one item. -/
theorem prefetch_null_result_errors
    (process : α → ProcOutcome β) (f : α → β) (pre post : List α) (x : α)
    (capacity : Nat)
    (hpre : ∀ y ∈ pre, process y = .ok (f y))
    (hx : process x = .nullResult)
    (hfit : constructionCompletes (fillQueue process (pre ++ x :: post)) capacity = true) :
    prefetchRun process (pre ++ x :: post) capacity =
      some (.errored (pre.map f) (wrapValueError "Unexpected None"), ⟨[], false, 0⟩) ∧
    ∀ process2 : α → ProcOutcome β,
      (∀ y ∈ pre, process2 y = process y) → process2 x = .exn "Unexpected None" →
      fillQueue process2 (pre ++ x :: post) = fillQueue process (pre ++ x :: post) := by
  have hfill : fillQueue process (pre ++ x :: post) =
      (pre.map f).map QItem.val ++ [.errSentinel (wrapValueError "Unexpected None")] := by
    clear hfit
    induction pre with
    | nil => simp [fillQueue, hx]
    | cons y ys ih =>
      have hy : process y = .ok (f y) := hpre y (List.mem_cons_self y ys)
      simp only [List.cons_append, fillQueue, hy, List.map_cons]
      exact congrArg (QItem.val (f y) :: ·)
        (ih fun z hz => hpre z (List.mem_cons_of_mem y hz))
  constructor
  · unfold prefetchRun
    rw [hfill] at hfit ⊢
    rw [if_pos hfit]
    unfold stDrain
    rw [show (((pre.map f).map QItem.val ++
        [QItem.errSentinel (wrapValueError "Unexpected None")]) : List (QItem β)).length =
        (pre.map f).length + 1 by simp]
    rw [show (pre.map f).length + 1 + 1 = (pre.map f).length + 2 from rfl]
    rw [stDrain_vals_err 0 (wrapValueError "Unexpected None") (pre.map f) []]
    simp
  · intro process2 hagree hx2
    rw [hfill]
    exact fillQueue_prefix_err process2 f x post "Unexpected None" hx2 pre
      fun y hy => (hagree y hy).trans (hpre y hy)

/-- Witness for C5: `_process` returning `None` on item `2` of `[1, 2, 3]`
delivers the wrapped `Unexpected None` error after the first item. -/
theorem prefetch_null_result_errors_witness :
    prefetchRun procNullAt2 ([1] ++ 2 :: [3]) 20 =
      some (.errored ([1].map (fun n => n + 10)) (wrapValueError "Unexpected None"),
        ⟨[], false, 0⟩) ∧
    ∀ process2 : Nat → ProcOutcome Nat,
      (∀ y ∈ [1], process2 y = procNullAt2 y) → process2 2 = .exn "Unexpected None" →
      fillQueue process2 ([1] ++ 2 :: [3]) = fillQueue procNullAt2 ([1] ++ 2 :: [3]) :=
  prefetch_null_result_errors procNullAt2 (fun n => n + 10) [1] [3] 2 20
    (by decide) (by decide) (by decide)

/-- The `None` completion sentinel handled by `__next__` is never actually
placed on the queue by `fill_queue`: every enqueued entry is either a
processed value or a wrapping error sentinel. -/
theorem fillQueue_no_noneSentinel (process : α → ProcOutcome β) :
    ∀ items : List α, QItem.noneSentinel ∉ fillQueue process items := by
  intro items
  induction items with
  | nil => simp [fillQueue]
  | cons x xs ih =>
    simp only [fillQueue]
    cases process x with
    | ok v => simp [ih]
    | exn m => simp
    | nullResult => simp

/-- Claim C9: for every source exhausted without `_process` ever raising or
returning `None`, `fill_queue` enqueues exactly the processed values in
source order and nothing else — no completion sentinel (`None`, which in
fact is never enqueued for any transform at all) and no error sentinel — so
on an error-free run the consumer's `completed_threads` counter stays 0 and
the `done` flag stays false through the whole drain, and end of stream is
signaled with the queue empty, `done` unset, through the non-blocking
queue-empty check. -/
theorem fill_queue_clean_run_no_sentinels
    (process : α → ProcOutcome β) (f : α → β) (items : List α) (capacity : Nat)
    (hproc : ∀ x ∈ items, process x = .ok (f x))
    (hfit : constructionCompletes (fillQueue process items) capacity = true) :
    fillQueue process items = (items.map f).map QItem.val ∧
    (∀ (p : α → ProcOutcome β) (l : List α), QItem.noneSentinel ∉ fillQueue p l) ∧
    prefetchRun process items capacity =
      some (.finished (items.map f), ⟨[], false, 0⟩) := by
  refine ⟨fillQueue_all_ok process f items hproc, fun p l => fillQueue_no_noneSentinel p l, ?_⟩
  have hfill := fillQueue_all_ok process f items hproc
  unfold prefetchRun
  rw [hfill] at hfit ⊢
  rw [if_pos hfit]
  unfold stDrain
  rw [show ((items.map f).map QItem.val : List (QItem β)).length = (items.map f).length by
    simp]
  rw [stDrain_vals 0 (items.map f) []]
  simp

/-- Witness for C9 on the 2-item source `[5, 6]` with capacity 20. -/
theorem fill_queue_clean_run_no_sentinels_witness :
    fillQueue (fun n : Nat => ProcOutcome.ok (n * 2)) [5, 6] =
      ([5, 6].map (fun n => n * 2)).map QItem.val ∧
    (∀ (p : Nat → ProcOutcome Nat) (l : List Nat),
      QItem.noneSentinel ∉ fillQueue p l) ∧
    prefetchRun (fun n : Nat => ProcOutcome.ok (n * 2)) [5, 6] 20 =
      some (.finished ([5, 6].map (fun n => n * 2)), ⟨[], false, 0⟩) :=
  fill_queue_clean_run_no_sentinels (fun n : Nat => ProcOutcome.ok (n * 2))
    (fun n => n * 2) [5, 6] 20 (by decide) (by decide)

/-! ## ThreadSafeGen: sequential behaviour (claim C8) -/

/-- The underlying Python iterator protocol: `next(it)` either produces the
next element and the advanced iterator, or signals `StopIteration`
(modeled by `none`). The remaining elements are the iterator state. -/
def sourceNext : List α → Option (α × List α)
  | [] => none
  | x :: xs => some (x, xs)

/-- State of a `ThreadSafeGen` (generator.py lines 10-27): the wrapped
iterable and its `threading.Lock`. -/
structure ThreadSafeGen (α : Type) where
  iterable : List α
  lockLocked : Bool
deriving DecidableEq, Repr

/-- Result of one `ThreadSafeGen.__next__` call: a yielded element, a
propagated `StopIteration`, or blocking forever on a lock that no other
thread will release. -/
inductive TsgResult (α : Type) where
  | yielded (a : α)
  | exhausted
  | blockedOnLock
deriving DecidableEq, Repr

/-- One `ThreadSafeGen.__next__` call (generator.py lines 25-27):
`with self.lock: return next(self.iterable)` — acquire the lock, advance
the underlying iterator exactly once, release the lock (also on
`StopIteration`, which propagates unchanged). -/
def tsgNext (g : ThreadSafeGen α) : TsgResult α × ThreadSafeGen α :=
  if g.lockLocked then (.blockedOnLock, g)
  else
    match sourceNext g.iterable with
    | none => (.exhausted, ⟨g.iterable, false⟩)
    | some (x, rest) => (.yielded x, ⟨rest, false⟩)

/-- Sequence of elements obtained by repeatedly calling `next` directly on
the underlying iterator until `StopIteration`. -/
def iterDrainAux : Nat → List α → List α
  | 0, _ => []
  | fuel + 1, l =>
    match sourceNext l with
    | none => []
    | some (x, rest) => x :: iterDrainAux fuel rest

/-- Full direct iteration of the underlying iterator. -/
def iterDrain (l : List α) : List α := iterDrainAux (l.length + 1) l

/-- Sequence of elements obtained by repeatedly calling
`ThreadSafeGen.__next__` from a single consumer until exhaustion. -/
def tsgDrainAux : Nat → ThreadSafeGen α → List α
  | 0, _ => []
  | fuel + 1, g =>
    match tsgNext g with
    | (.yielded x, g1) => x :: tsgDrainAux fuel g1
    | (.exhausted, _) => []
    | (.blockedOnLock, _) => []

/-- Full sequential iteration of a `ThreadSafeGen`. -/
def tsgDrain (g : ThreadSafeGen α) : List α := tsgDrainAux (g.iterable.length + 1) g

/-- Direct iteration of a list-backed iterator returns exactly the list. -/
theorem iterDrainAux_eq (k : Nat) :
    ∀ l : List α, iterDrainAux (l.length + 1 + k) l = l := by
  intro l
  induction l generalizing k with
  | nil => cases k <;> rfl
  | cons x xs ih =>
    rw [show (x :: xs).length + 1 + k = (xs.length + 1 + k) + 1 by
      simp [Nat.add_right_comm]]
    simp only [iterDrainAux, sourceNext]
    rw [ih k]

/-- Sequential iteration of a `ThreadSafeGen` whose lock is free returns
exactly the wrapped list. -/
theorem tsgDrainAux_eq (k : Nat) :
    ∀ l : List α, tsgDrainAux (l.length + 1 + k) ⟨l, false⟩ = l := by
  intro l
  induction l generalizing k with
  | nil => cases k <;> rfl
  | cons x xs ih =>
    rw [show (x :: xs).length + 1 + k = (xs.length + 1 + k) + 1 by
      simp [Nat.add_right_comm]]
    simp only [tsgDrainAux, tsgNext, sourceNext, Bool.false_eq_true, if_false]
    rw [ih k]

/-- Claim C8: iterating a `ThreadSafeGen` sequentially yields exactly the
same sequence of elements as iterating the underlying iterable directly
(first conjunct); each `__next__` call acquires the free lock, advances the
underlying source exactly once, and returns that element unchanged with the
source advanced to exactly the rest — no element buffered or duplicated
(second conjunct); and exhaustion surfaces exactly when the source itself
signals exhaustion, at the same position (third conjunct). -/
theorem tsg_sequential_equiv :
    (∀ l : List α, tsgDrain ⟨l, false⟩ = iterDrain l) ∧
    (∀ (l : List α) (x : α) (rest : List α), sourceNext l = some (x, rest) →
      tsgNext (⟨l, false⟩ : ThreadSafeGen α) = (.yielded x, ⟨rest, false⟩)) ∧
    (∀ l : List α,
      (tsgNext (⟨l, false⟩ : ThreadSafeGen α)).1 = .exhausted ↔ sourceNext l = none) := by
  refine ⟨?_, ?_, ?_⟩
  · intro l
    unfold tsgDrain iterDrain
    rw [show l.length + 1 = l.length + 1 + 0 from rfl, tsgDrainAux_eq 0 l,
      iterDrainAux_eq 0 l]
  · intro l x rest h
    simp [tsgNext, h]
  · intro l
    cases l with
    | nil => simp [tsgNext, sourceNext]
    | cons x xs => simp [tsgNext, sourceNext]

/-- Witness for C8 at the concrete source `[4, 5, 6]`. -/
theorem tsg_sequential_equiv_witness :
    tsgDrain (⟨[4, 5, 6], false⟩ : ThreadSafeGen Nat) = iterDrain [4, 5, 6] ∧
    sourceNext [4, 5, 6] = some (4, [5, 6]) ∧
    tsgNext (⟨[4, 5, 6], false⟩ : ThreadSafeGen Nat) = (.yielded 4, ⟨[5, 6], false⟩) :=
  ⟨(tsg_sequential_equiv).1 [4, 5, 6], by decide,
    (tsg_sequential_equiv).2.1 [4, 5, 6] 4 [5, 6] (by decide)⟩

/-! ## Paginator model (pagination.py): BasePaginator via IdentifierPaginator -/

/-- State of an `IdentifierPaginator` (pagination.py lines 14-22 and 48-62):
the fixed identifier list, the page `limit`, the running offset
`_current_idx`, the `_is_last_page` flag, the buffered
`_entities_from_last_page`, and (for the spec claims) the log of identifier
windows sent in each fetch request so far. -/
structure PagState (Raw Entity : Type) where
  identifiers : List String
  limit : Nat
  currentIdx : Nat
  isLastPage : Bool
  buffer : List Entity
  callsMade : List (List String)
deriving DecidableEq, Repr

/-- `IdentifierPaginator.get_next_page` (pagination.py lines 64-75): slice
`identifiers[_current_idx:end_idx]`, advance the offset unconditionally by
`limit`, set `_is_last_page` by pure arithmetic when the new offset reaches
the identifier count, and only then issue the request. The session is
modeled as an arbitrary function from the fetch-call index to the raw
records it returns; the window of identifiers put into the request
parameters is logged. -/
def getNextPage (session : Nat → List Raw) (s : PagState Raw Entity) :
    List Raw × PagState Raw Entity :=
  let ids := (s.identifiers.drop s.currentIdx).take s.limit
  let c := s.currentIdx + s.limit
  let isLast := if s.identifiers.length ≤ c then true else s.isLastPage
  (session s.callsMade.length,
    { s with currentIdx := c, isLastPage := isLast, callsMade := s.callsMade ++ [ids] })

/-- Result of one `BasePaginator.__next__` call: a yielded entity with the
successor state, `StopIteration` with the (unchanged) state, or fuel
exhaustion of the `return next(self)` recursion. -/
inductive PagStep (Raw Entity : Type) where
  | yieldE (e : Entity) (s : PagState Raw Entity)
  | stop (s : PagState Raw Entity)
  | outOfFuel
deriving DecidableEq, Repr

/-- One `BasePaginator.__next__` call (pagination.py lines 35-43): if the
buffered page is non-empty, pop (from the right: Python `list.pop`) and
return one entity; else if `_is_last_page`, raise `StopIteration`; else
fetch the next page, deserialize every raw record (`deserialize_entity`,
modeled by the function `d`), buffer them, and recurse (`return
next(self)`). -/
def pagNext (session : Nat → List Raw) (d : Raw → Entity) :
    Nat → PagState Raw Entity → PagStep Raw Entity
  | 0, _ => .outOfFuel
  | fuel + 1, s =>
    match s.buffer.getLast? with
    | some e => .yieldE e { s with buffer := s.buffer.dropLast }
    | none =>
      if s.isLastPage then .stop s
      else
        let r := getNextPage session s
        pagNext session d fuel { r.2 with buffer := r.1.map d }

/-- Full iteration of the paginator (`list(paginator)`): the loop obtained
by repeatedly calling `__next__`, flattened — each iteration either pops
the right end of the buffer, stops on the exhausted flag, or fetches and
deserializes the next page and continues. `fuel` bounds the number of loop
iterations; `none` marks a run that does not finish within the fuel (for
`limit = 0` and a non-empty identifier list the real loop never
terminates). -/
def pagDrainAux (session : Nat → List Raw) (d : Raw → Entity) :
    Nat → PagState Raw Entity → List Entity →
      Option (List Entity × PagState Raw Entity)
  | 0, _, _ => none
  | fuel + 1, s, acc =>
    match s.buffer.getLast? with
    | some e => pagDrainAux session d fuel { s with buffer := s.buffer.dropLast } (acc ++ [e])
    | none =>
      if s.isLastPage then some (acc, s)
      else
        let r := getNextPage session s
        pagDrainAux session d fuel { r.2 with buffer := r.1.map d } acc

/-- Initial paginator state (pagination.py lines 14-22 and 48-62):
offset 0, flag false, empty buffer, no calls made. -/
def initPag (ids : List String) (limit : Nat) : PagState Raw Entity :=
  ⟨ids, limit, 0, false, [], []⟩

/-- Ceiling division `ceil(n / limit)` on naturals. -/
def ceilDiv (n limit : Nat) : Nat := (n + limit - 1) / limit

/-- Number of fetch calls a full drain performs: `ceil(N / limit)` pages
for a non-empty identifier list, but one call for an empty list (the first
`__next__` finds an empty buffer and an unset flag, so it fetches once
before the arithmetic marks the last page). -/
def numCalls (n limit : Nat) : Nat := if n = 0 then 1 else ceilDiv n limit

/-- Loop iterations needed to drain `k` pages starting at call index
`start`: one fetch plus one pop per record for each page, plus the final
`StopIteration` check. -/
def pagFuel (session : Nat → List Raw) : Nat → Nat → Nat
  | _, 0 => 1
  | start, k + 1 => 1 + (session start).length + pagFuel session (start + 1) k

/-- Entities yielded by a full drain: for each fetched page, its records
deserialized and reversed (LIFO pop of the buffered page), page after
page. -/
def expYields (session : Nat → List Raw) (d : Raw → Entity) (n limit : Nat) :
    List Entity :=
  ((List.range (numCalls n limit)).map fun i => ((session i).map d).reverse).flatten

/-- Full run of an `IdentifierPaginator` built on `ids` and `limit`,
drained to `StopIteration`. -/
def pagRun (session : Nat → List Raw) (d : Raw → Entity) (ids : List String)
    (limit : Nat) : Option (List Entity × PagState Raw Entity) :=
  pagDrainAux session d (pagFuel session 0 (numCalls ids.length limit))
    (initPag ids limit) []

/-! ## Arithmetic helpers for page counting -/

/-- A drain always makes at least one fetch call. -/
theorem numCalls_pos (n limit : Nat) (hl : 1 ≤ limit) : 1 ≤ numCalls n limit := by
  unfold numCalls ceilDiv
  by_cases hn : n = 0
  · simp [hn]
  · rw [if_neg hn]
    exact Nat.div_pos (by omega) (by omega)

/-- When the remaining identifiers exceed one window, at least two calls
remain. -/
theorem numCalls_ge_two (n limit : Nat) (hl : 1 ≤ limit) (hn : limit < n) :
    2 ≤ numCalls n limit := by
  unfold numCalls ceilDiv
  rw [if_neg (by omega)]
  rw [Nat.le_div_iff_mul_le (by omega)]
  omega

/-- When the remaining identifiers fit in one window, exactly one call
remains. -/
theorem numCalls_eq_one (n limit : Nat) (hl : 1 ≤ limit) (hn : n ≤ limit) :
    numCalls n limit = 1 := by
  unfold numCalls ceilDiv
  by_cases h0 : n = 0
  · simp [h0]
  · rw [if_neg h0]
    have hlt : (n + limit - 1) / limit < 2 := by
      rw [Nat.div_lt_iff_lt_mul (by omega)]
      omega
    have hge : 1 ≤ (n + limit - 1) / limit := Nat.div_pos (by omega) (by omega)
    omega

/-- Peeling one window off the remaining identifiers removes exactly one
call. -/
theorem numCalls_window_succ (n limit : Nat) (hl : 1 ≤ limit) (hn : limit < n) :
    numCalls n limit = numCalls (n - limit) limit + 1 := by
  unfold numCalls ceilDiv
  rw [if_neg (by omega), if_neg (by omega)]
  rw [show n + limit - 1 = (n - limit + limit - 1) + limit by omega,
    Nat.add_div_right _ (by omega)]

/-! ## Drain lemmas for the paginator -/

/-- Popping a buffered page: while the buffer is non-empty, each loop
iteration pops its right end, so a buffer `B` is consumed entirely into
`B.reverse`, with no fetch and no state change otherwise. -/
theorem pagDrain_buffer (session : Nat → List Raw) (d : Raw → Entity)
    (ids : List String) (lim cIdx : Nat) (last : Bool) (calls : List (List String)) :
    ∀ (B : List Entity) (f : Nat) (acc : List Entity),
      pagDrainAux session d (B.length + f) ⟨ids, lim, cIdx, last, B, calls⟩ acc =
        pagDrainAux session d f ⟨ids, lim, cIdx, last, [], calls⟩ (acc ++ B.reverse) := by
  intro B
  induction B using List.reverseRecOn with
  | nil => intro f acc; simp
  | append_singleton ys y ih =>
    intro f acc
    rw [show (ys ++ [y]).length + f = (ys.length + f) + 1 by simp; omega]
    simp only [pagDrainAux, List.getLast?_concat, List.dropLast_concat]
    rw [ih f (acc ++ [y])]
    simp

/-- Splitting the flattened page yields at the first fetched page. -/
theorem expY_shift (session : Nat → List Raw) (d : Raw → Entity) (m k : Nat) :
    ((List.range (k + 1)).map fun i => ((session (m + i)).map d).reverse).flatten
      = ((session m).map d).reverse ++
        ((List.range k).map fun i => ((session (m + 1 + i)).map d).reverse).flatten := by
  rw [List.range_succ_eq_map]
  simp only [List.map_cons, List.flatten_cons, Nat.add_zero, List.map_map]
  congr 1
  congr 1
  apply List.map_congr_left
  intro i _
  simp only [Function.comp_apply, Nat.succ_eq_add_one]
  rw [show m + (i + 1) = m + 1 + i by omega]

/-- Splitting the logged identifier windows at the first fetched window. -/
theorem windows_shift (ids : List String) (lim m k : Nat) :
    ((List.range (k + 1)).map fun i => (ids.drop (m + i * lim)).take lim)
      = (ids.drop m).take lim ::
        ((List.range k).map fun i => (ids.drop (m + lim + i * lim)).take lim) := by
  rw [List.range_succ_eq_map]
  simp only [List.map_cons, Nat.zero_mul, Nat.add_zero, List.map_map]
  congr 1
  apply List.map_congr_left
  intro i _
  simp only [Function.comp_apply, Nat.succ_eq_add_one]
  rw [show m + (i + 1) * lim = m + lim + i * lim by ring]

/-- Master drain lemma: from any state with an empty buffer and an unset
flag, a full drain performs exactly `numCalls` further fetches, logs the
successive identifier windows, advances the offset by `limit` per fetch,
ends with the flag set, and yields each fetched page deserialized and
reversed, in fetch order. -/
theorem pag_master (session : Nat → List Raw) (d : Raw → Entity)
    (ids : List String) (lim : Nat) (hl : 1 ≤ lim) :
    ∀ (k c : Nat) (calls : List (List String)) (acc : List Entity),
      k = numCalls (ids.length - c) lim →
      pagDrainAux session d (pagFuel session calls.length k)
          ⟨ids, lim, c, false, [], calls⟩ acc =
        some (acc ++ ((List.range k).map fun i =>
            ((session (calls.length + i)).map d).reverse).flatten,
          ⟨ids, lim, c + k * lim, true, [],
            calls ++ (List.range k).map fun i => (ids.drop (c + i * lim)).take lim⟩) := by
  intro k
  induction k with
  | zero =>
    intro c calls acc hk
    exact absurd hk.symm (by have := numCalls_pos (ids.length - c) lim hl; omega)
  | succ k1 ih =>
    intro c calls acc hk
    rw [show pagFuel session calls.length (k1 + 1) =
      ((session calls.length).length + pagFuel session (calls.length + 1) k1) + 1 by
        simp [pagFuel]; omega]
    simp only [pagDrainAux, List.getLast?_nil]
    rw [if_neg (by simp)]
    simp only [getNextPage]
    rw [show ((session calls.length).length : Nat) =
      ((session calls.length).map d).length by simp]
    rw [pagDrain_buffer session d ids lim (c + lim)
      (if ids.length ≤ c + lim then true else false)
      (calls ++ [(ids.drop c).take lim])
      ((session calls.length).map d) (pagFuel session (calls.length + 1) k1) acc]
    rcases Nat.eq_zero_or_pos k1 with hk1 | hk1
    · subst hk1
      have hle : ids.length ≤ c + lim := by
        by_contra hcon
        have := numCalls_ge_two (ids.length - c) lim hl (by omega)
        omega
      rw [if_pos hle]
      rw [show pagFuel session (calls.length + 1) 0 = 0 + 1 from rfl]
      simp only [pagDrainAux, List.getLast?_nil]
      simp [List.range_succ]
    · obtain ⟨k2, rfl⟩ : ∃ k2, k1 = k2 + 1 := ⟨k1 - 1, by omega⟩
      have hlt : lim < ids.length - c := by
        by_contra hcon
        have := numCalls_eq_one (ids.length - c) lim hl (by omega)
        omega
      have hnle : ¬ ids.length ≤ c + lim := by omega
      rw [if_neg hnle]
      have hk2 : k2 + 1 = numCalls (ids.length - (c + lim)) lim := by
        have hrec := numCalls_window_succ (ids.length - c) lim hl hlt
        rw [show ids.length - c - lim = ids.length - (c + lim) by omega] at hrec
        omega
      have happly := ih (c + lim) (calls ++ [(ids.drop c).take lim])
        (acc ++ ((session calls.length).map d).reverse) hk2
      rw [show ((calls ++ [(ids.drop c).take lim]).length) = calls.length + 1 by simp]
        at happly
      conv_rhs => rw [expY_shift session d calls.length (k2 + 1),
        windows_shift ids lim c (k2 + 1)]
      rw [happly]
      simp only [Option.some_inj, Prod.mk.injEq, PagState.mk.injEq, true_and]
      exact ⟨by simp [List.append_assoc], by ring, by simp [List.append_assoc]⟩

/-- The successive identifier windows of a full drain partition the
remaining identifier list: their concatenation is exactly the identifiers
from the current offset on. -/
theorem windows_join (ids : List String) (lim : Nat) (hl : 1 ≤ lim) :
    ∀ (k c : Nat), k = numCalls (ids.length - c) lim →
      ((List.range k).map fun i => (ids.drop (c + i * lim)).take lim).flatten =
        ids.drop c := by
  intro k
  induction k with
  | zero =>
    intro c hk
    exact absurd hk.symm (by have := numCalls_pos (ids.length - c) lim hl; omega)
  | succ k1 ih =>
    intro c hk
    rcases Nat.eq_zero_or_pos k1 with hk1 | hk1
    · subst hk1
      have hle : ids.length - c ≤ lim := by
        by_contra hcon
        have := numCalls_ge_two (ids.length - c) lim hl (by omega)
        omega
      rw [List.range_succ]
      simp only [List.range_zero, List.map_append, List.map_cons, List.map_nil,
        List.flatten_append, List.flatten_cons, List.flatten_nil, List.nil_append,
        List.append_nil, Nat.zero_mul, Nat.add_zero]
      exact List.take_of_length_le (by simp only [List.length_drop]; omega)
    · obtain ⟨k2, rfl⟩ : ∃ k2, k1 = k2 + 1 := ⟨k1 - 1, by omega⟩
      have hlt : lim < ids.length - c := by
        by_contra hcon
        have := numCalls_eq_one (ids.length - c) lim hl (by omega)
        omega
      have hk2 : k2 + 1 = numCalls (ids.length - (c + lim)) lim := by
        have hrec := numCalls_window_succ (ids.length - c) lim hl hlt
        rw [show ids.length - c - lim = ids.length - (c + lim) by omega] at hrec
        omega
      rw [windows_shift ids lim c (k2 + 1), List.flatten_cons, ih (c + lim) hk2]
      exact List.drop_take_append_drop ids c lim

/-- Claim C4, counterexample: the claim predicts `ceil(N / limit)` fetch
calls for every list of `N` identifiers, hence zero calls for an empty
list. In the code, the first `__next__` finds an empty buffer and an unset
`_is_last_page` flag, so it fetches once even for `N = 0`: with `limit = 5`
and no identifiers, the drained paginator has made exactly one call (its
call log is `[[]]`, one request with an empty identifier window), while
`ceil(0 / 5) = 0`. -/
theorem paginator_empty_ids_one_call_cex :
    pagRun (fun _ => ([] : List Nat)) (fun r => r) ([] : List String) 5 =
      some ([], ⟨[], 5, 5, true, [], [[]]⟩) ∧
    ceilDiv 0 5 = 0 := by
  constructor
  · rfl
  · rfl

/-- Claim C4, amended: for every non-empty list of `N` identifiers and
every page limit at least 1, a full drain of an `IdentifierPaginator`
issues exactly `ceil(N / limit)` page-fetch calls; every identifier appears
in exactly one fetch request (the logged windows concatenate back to the
identifier list, i.e. they partition it into the consecutive slices of
`limit`); and the total number of entities yielded equals the total number
of raw records returned across all fetches. For `N = 0` the code instead
issues exactly one fetch call with an empty window (see the
counterexample), and for `limit = 0` with `N` positive the drain never
terminates. -/
theorem paginator_call_count_partition (session : Nat → List Raw) (d : Raw → Entity)
    (ids : List String) (limit : Nat) (hN : 1 ≤ ids.length) (hl : 1 ≤ limit) :
    ∃ ys fs, pagRun session d ids limit = some (ys, fs) ∧
      fs.callsMade.length = ceilDiv ids.length limit ∧
      fs.callsMade.flatten = ids ∧
      ys.length = ((List.range (ceilDiv ids.length limit)).map fun i =>
        (session i).length).sum := by
  have hnc : numCalls ids.length limit = ceilDiv ids.length limit := by
    unfold numCalls
    rw [if_neg (by omega)]
  have hmaster := pag_master session d ids limit hl (numCalls (ids.length - 0) limit)
    0 [] [] rfl
  refine ⟨[] ++ ((List.range (numCalls (ids.length - 0) limit)).map fun i =>
      ((session ((List.nil : List (List String)).length + i)).map d).reverse).flatten,
    ⟨ids, limit, 0 + numCalls (ids.length - 0) limit * limit, true, [],
      [] ++ (List.range (numCalls (ids.length - 0) limit)).map fun i =>
        (ids.drop (0 + i * limit)).take limit⟩, ?_, ?_, ?_, ?_⟩
  · show pagDrainAux session d (pagFuel session 0 (numCalls ids.length limit))
      (initPag ids limit) [] = _
    rw [show numCalls ids.length limit = numCalls (ids.length - 0) limit by
      rw [Nat.sub_zero]]
    exact hmaster
  · simp [hnc]
  · simp only [List.nil_append]
    exact windows_join ids limit hl (numCalls (ids.length - 0) limit) 0 rfl
  · rw [← hnc]
    simp only [List.nil_append, List.length_flatten, List.map_map, Nat.sub_zero]
    congr 1
    apply List.map_congr_left
    intro i _
    simp

/-- Witness for the amended C4: five identifiers with `limit = 2` (the
shape of the repository's own unit test) make exactly 3 fetch calls whose
windows partition the identifiers, and yield one entity per raw record. -/
theorem paginator_call_count_partition_witness :
    (1 ≤ (["a", "b", "c", "d", "e"] : List String).length) ∧ (1 ≤ 2) ∧
    ∃ ys fs, pagRun (fun i => [i, 100 + i]) (fun r => r)
        ["a", "b", "c", "d", "e"] 2 = some (ys, fs) ∧
      fs.callsMade.length = ceilDiv (["a", "b", "c", "d", "e"] : List String).length 2 ∧
      fs.callsMade.flatten = ["a", "b", "c", "d", "e"] ∧
      ys.length = ((List.range (ceilDiv (["a", "b", "c", "d", "e"] : List String).length 2)).map
        fun i => ([i, 100 + i] : List Nat).length).sum :=
  ⟨by decide, by decide,
    paginator_call_count_partition (fun i => [i, 100 + i]) (fun r => r)
      ["a", "b", "c", "d", "e"] 2 (by decide) (by decide)⟩

/-- Claim C6: each `BasePaginator.__next__` with a non-empty buffered page
pops the right end of the buffer (Python `list.pop`, a stack/LIFO pop), so
a full drain yields, for every fetched page of raw records, the
deserialized entities of that page in reverse intra-page order —
`expYields` reverses each page — before any record of the next page is
yielded. -/
theorem paginator_page_reversed_lifo (session : Nat → List Raw) (d : Raw → Entity)
    (ids : List String) (limit : Nat) (hl : 1 ≤ limit) :
    (∀ (fuel : Nat) (s : PagState Raw Entity) (e : Entity),
      s.buffer.getLast? = some e →
      pagNext session d (fuel + 1) s = .yieldE e { s with buffer := s.buffer.dropLast }) ∧
    ∃ fs, pagRun session d ids limit =
      some (expYields session d ids.length limit, fs) := by
  constructor
  · intro fuel s e he
    simp [pagNext, he]
  · have hmaster := pag_master session d ids limit hl (numCalls (ids.length - 0) limit)
      0 [] [] rfl
    refine ⟨⟨ids, limit, 0 + numCalls (ids.length - 0) limit * limit, true, [],
      [] ++ (List.range (numCalls (ids.length - 0) limit)).map fun i =>
        (ids.drop (0 + i * limit)).take limit⟩, ?_⟩
    have hexp : expYields session d ids.length limit =
        [] ++ ((List.range (numCalls (ids.length - 0) limit)).map fun i =>
          ((session ((List.nil : List (List String)).length + i)).map d).reverse).flatten := by
      unfold expYields
      rw [show numCalls ids.length limit = numCalls (ids.length - 0) limit by
        rw [Nat.sub_zero]]
      simp
    rw [hexp]
    show pagDrainAux session d (pagFuel session 0 (numCalls ids.length limit))
      (initPag ids limit) [] = _
    rw [show numCalls ids.length limit = numCalls (ids.length - 0) limit by
      rw [Nat.sub_zero]]
    exact hmaster

/-- Monotonicity of one `__next__` call: the offset never decreases and the
last-page flag is never reset, whether the call yields or stops. -/
theorem pagNext_mono (session : Nat → List Raw) (d : Raw → Entity) :
    ∀ (fuel : Nat) (s : PagState Raw Entity),
      (∀ e s1, pagNext session d fuel s = .yieldE e s1 →
        s.currentIdx ≤ s1.currentIdx ∧ (s.isLastPage = true → s1.isLastPage = true)) ∧
      (∀ s1, pagNext session d fuel s = .stop s1 →
        s.currentIdx ≤ s1.currentIdx ∧ (s.isLastPage = true → s1.isLastPage = true)) := by
  intro fuel
  induction fuel with
  | zero =>
    intro s
    constructor
    · intro e s1 h
      simp [pagNext] at h
    · intro s1 h
      simp [pagNext] at h
  | succ f ihf =>
    intro s
    cases hb : s.buffer.getLast? with
    | some e0 =>
      constructor
      · intro e s1 h
        simp only [pagNext, hb] at h
        cases h
        exact ⟨Nat.le_refl _, fun hx => hx⟩
      · intro s1 h
        simp only [pagNext, hb] at h
        exact PagStep.noConfusion h
    | none =>
      by_cases hlast : s.isLastPage = true
      · constructor
        · intro e s1 h
          simp only [pagNext, hb, if_pos hlast] at h
          exact PagStep.noConfusion h
        · intro s1 h
          simp only [pagNext, hb, if_pos hlast] at h
          cases h
          exact ⟨Nat.le_refl _, fun hx => hx⟩
      · constructor
        · intro e s1 h
          simp only [pagNext, hb, if_neg hlast] at h
          have := ((ihf _).1 e s1 h).1
          simp only [getNextPage] at this
          exact ⟨by omega, fun hx => absurd hx hlast⟩
        · intro s1 h
          simp only [pagNext, hb, if_neg hlast] at h
          have := ((ihf _).2 s1 h).1
          simp only [getNextPage] at this
          exact ⟨by omega, fun hx => absurd hx hlast⟩

/-- Whatever `some` result a drain ends with has the last-page flag set:
the only way the loop stops is the `_is_last_page` check. -/
theorem pagDrain_final_flag (session : Nat → List Raw) (d : Raw → Entity) :
    ∀ (fuel : Nat) (s : PagState Raw Entity) (acc ys : List Entity)
      (fs : PagState Raw Entity),
      pagDrainAux session d fuel s acc = some (ys, fs) → fs.isLastPage = true := by
  intro fuel
  induction fuel with
  | zero =>
    intro s acc ys fs h
    simp [pagDrainAux] at h
  | succ f ihf =>
    intro s acc ys fs h
    simp only [pagDrainAux] at h
    cases hb : s.buffer.getLast? with
    | some e0 =>
      rw [hb] at h
      exact ihf _ _ _ _ h
    | none =>
      rw [hb] at h
      by_cases hlast : s.isLastPage = true
      · rw [if_pos hlast] at h
        simp only [Option.some_inj, Prod.mk.injEq] at h
        rw [← h.2]
        exact hlast
      · rw [if_neg hlast] at h
        exact ihf _ _ _ _ h

/-- Claim C7: across every sequence of `IdentifierPaginator` operations,
the offset `_current_idx` is monotonically non-decreasing (conjuncts 1-2;
conjunct 3 shows each fetch advances it unconditionally by exactly `limit`)
and the last-page flag is never reset once true (conjuncts 1-2), is set by
pure arithmetic before the fetch response is used — its value after
`get_next_page` is the same for every session and equals the test of
whether the window end reached the identifier count (conjunct 3) — becomes
true by the end of every terminating drain (conjunct 5, with it starting
false, conjunct 6), and the Exhausted state is terminal: with the flag set
and the buffer drained, `__next__` raises `StopIteration` with the state
unchanged, in particular performing no further fetch (conjunct 4). -/
theorem paginator_state_invariants (session : Nat → List Raw) (d : Raw → Entity) :
    (∀ (fuel : Nat) (s s1 : PagState Raw Entity) (e : Entity),
      pagNext session d fuel s = .yieldE e s1 →
      s.currentIdx ≤ s1.currentIdx ∧ (s.isLastPage = true → s1.isLastPage = true)) ∧
    (∀ (fuel : Nat) (s s1 : PagState Raw Entity),
      pagNext session d fuel s = .stop s1 →
      s.currentIdx ≤ s1.currentIdx ∧ (s.isLastPage = true → s1.isLastPage = true)) ∧
    (∀ (session2 : Nat → List Raw) (s : PagState Raw Entity),
      (getNextPage session2 s).2.currentIdx = s.currentIdx + s.limit ∧
      (getNextPage session2 s).2.isLastPage =
        (decide (s.identifiers.length ≤ s.currentIdx + s.limit) || s.isLastPage)) ∧
    (∀ (fuel : Nat) (s : PagState Raw Entity),
      s.isLastPage = true → s.buffer = [] → pagNext session d (fuel + 1) s = .stop s) ∧
    (∀ (ids : List String) (limit : Nat) (ys : List Entity) (fs : PagState Raw Entity),
      pagRun session d ids limit = some (ys, fs) → fs.isLastPage = true) ∧
    (∀ (ids : List String) (limit : Nat),
      (initPag ids limit : PagState Raw Entity).isLastPage = false) := by
  refine ⟨?_, ?_, ?_, ?_, ?_, ?_⟩
  · intro fuel s s1 e h
    exact ((pagNext_mono session d fuel s).1 e s1 h)
  · intro fuel s s1 h
    exact ((pagNext_mono session d fuel s).2 s1 h)
  · intro session2 s
    constructor
    · simp [getNextPage]
    · simp only [getNextPage]
      by_cases hc : s.identifiers.length ≤ s.currentIdx + s.limit
      · simp [hc]
      · simp [hc]
  · intro fuel s hlast hbuf
    simp [pagNext, hbuf, hlast]
  · intro ids limit ys fs h
    exact pagDrain_final_flag session d _ _ _ _ _ h
  · intro ids limit
    rfl

/-- Witness for C7: a one-identifier, limit-1 paginator drains in one fetch
call ending with the flag set, as conjunct 5 requires. -/
theorem paginator_state_invariants_witness :
    pagRun (fun _ => ([2] : List Nat)) (fun r => r + 1) ["x"] 1 =
      some ([3], ⟨["x"], 1, 1, true, [], [["x"]]⟩) ∧
    (⟨["x"], 1, 1, true, [], [["x"]]⟩ : PagState Nat Nat).isLastPage = true :=
  ⟨by rfl,
    (paginator_state_invariants (fun _ => ([2] : List Nat)) (fun r => r + 1)).2.2.2.2.1
      ["x"] 1 [3] ⟨["x"], 1, 1, true, [], [["x"]]⟩ (by rfl)⟩

/-- Witness for C6: three identifiers with limit 2 and two-record pages
yield each page reversed; the first page's records appear reversed before
any of the second page's. -/
theorem paginator_page_reversed_lifo_witness :
    (1 ≤ 2) ∧
    (∃ fs, pagRun (fun i => [i, i + 5]) (fun r => r) ["a", "b", "c"] 2 =
      some (expYields (fun i => [i, i + 5]) (fun r => r)
        (["a", "b", "c"] : List String).length 2, fs)) ∧
    expYields (fun i => [i, i + 5]) (fun r => r) 3 2 = [5, 0, 6, 1] :=
  ⟨by decide,
    (paginator_page_reversed_lifo (fun i => [i, i + 5]) (fun r => r)
      ["a", "b", "c"] 2 (by decide)).2,
    by rfl⟩

/-! ## ThreadSafeGen: concurrent drain (claim C10) -/

/-- Where a worker thread is inside one `ThreadSafeGen.__next__` call:
`idle` (outside the call, about to acquire `self.lock`), `holding` (lock
acquired, about to run `next(self.iterable)`), or `fetched v` (the advance
happened while holding the lock: `some x` is the element obtained, `none`
is a raised `StopIteration`; the `with` block is about to release the
lock). -/
inductive Phase (α : Type) where
  | idle
  | holding
  | fetched (v : Option α)
deriving DecidableEq, Repr

/-- One worker thread draining a shared `ThreadSafeGen`: its position in
the protocol, the elements it has obtained so far, and whether it has seen
the source exhausted and stopped. -/
structure Worker (α : Type) where
  phase : Phase α
  results : List α
  finished : Bool
deriving DecidableEq, Repr

/-- The shared system: the remaining elements of the wrapped iterable, the
current owner of `self.lock` (if any), and the worker threads. -/
structure TsgSystem (α : Type) where
  source : List α
  lockOwner : Option Nat
  workers : List (Worker α)
deriving DecidableEq, Repr

/-- One scheduler-chosen step of worker `tid`: acquire the lock (only
possible when it is free — otherwise the step is a no-op, the thread stays
blocked), or advance the iterator while holding the lock (pop the source
head, or observe exhaustion), or release the lock and record the outcome
(append the obtained element to the local results, or stop on
`StopIteration`). A finished worker or an unknown id does nothing. -/
def workerStep (sys : TsgSystem α) (tid : Nat) : TsgSystem α :=
  match sys.workers[tid]? with
  | none => sys
  | some w =>
    if w.finished then sys
    else
      match w.phase with
      | .idle =>
        match sys.lockOwner with
        | some _ => sys
        | none =>
          { sys with
            lockOwner := some tid,
            workers := sys.workers.set tid { w with phase := .holding } }
      | .holding =>
        match sys.source with
        | [] =>
          { sys with workers := sys.workers.set tid { w with phase := .fetched none } }
        | x :: rest =>
          { sys with
            source := rest,
            workers := sys.workers.set tid { w with phase := .fetched (some x) } }
      | .fetched v =>
        match v with
        | some x =>
          { sys with
            lockOwner := none,
            workers := sys.workers.set tid
              { w with
                phase := .idle,
                results := w.results ++ [x] } }
        | none =>
          { sys with
            lockOwner := none,
            workers := sys.workers.set tid
              { w with
                phase := .idle,
                finished := true } }

/-- Run a whole schedule (an arbitrary interleaving of thread ids). -/
def runSched : TsgSystem α → List Nat → TsgSystem α
  | sys, [] => sys
  | sys, t :: ts => runSched (workerStep sys t) ts

/-- Initial system: the full source, a free lock, `T` idle workers. -/
def initSystem (T : Nat) (vals : List α) : TsgSystem α :=
  ⟨vals, none, List.replicate T ⟨.idle, [], false⟩⟩

/-- Element currently held by a worker inside the lock, as a multiset. -/
def inflight (w : Worker α) : Multiset α :=
  match w.phase with
  | .fetched (some x) => {x}
  | _ => 0

/-- Elements a worker accounts for: recorded results plus the in-flight
element. -/
def workerTokens (w : Worker α) : Multiset α := (w.results : Multiset α) + inflight w

/-- All elements in the system: still in the source, or accounted for by
some worker. -/
def sysTokens (sys : TsgSystem α) : Multiset α :=
  (sys.source : Multiset α) + (sys.workers.map workerTokens).sum

/-- Mutual exclusion: at most one worker is inside its
`with self.lock` block (non-idle phase) at any time. -/
def mutexOK (sys : TsgSystem α) : Prop :=
  ∀ (i j : Nat) (wi wj : Worker α),
    sys.workers[i]? = some wi → sys.workers[j]? = some wj →
    wi.phase ≠ Phase.idle → wj.phase ≠ Phase.idle → i = j

/-- Reachability invariant of the system: finished workers are idle; a
worker that observed exhaustion while holding the lock saw an empty source,
and the source only shrinks, so any finished worker certifies an empty
source; when the lock is free every worker is idle; when the lock is owned,
only the owner is non-idle. -/
def SysInv (sys : TsgSystem α) : Prop :=
  (∀ (i : Nat) (w : Worker α), sys.workers[i]? = some w →
    w.finished = true → w.phase = Phase.idle) ∧
  (∀ (i : Nat) (w : Worker α), sys.workers[i]? = some w →
    w.phase = Phase.fetched none → sys.source = []) ∧
  (∀ (i : Nat) (w : Worker α), sys.workers[i]? = some w →
    w.finished = true → sys.source = []) ∧
  (sys.lockOwner = none → ∀ (i : Nat) (w : Worker α), sys.workers[i]? = some w →
    w.phase = Phase.idle) ∧
  (∀ t, sys.lockOwner = some t → ∀ (i : Nat) (w : Worker α), sys.workers[i]? = some w →
    w.phase ≠ Phase.idle → i = t)

/-- Looking up an index in a list updated at `tid` gives either the new
value (at `tid`) or the old entry (elsewhere). -/
theorem getElem?_set_cases {γ : Type} {l : List γ} {tid : Nat} {w1 : γ}
    (hlt : tid < l.length) :
    ∀ (i : Nat) (w2 : γ), (l.set tid w1)[i]? = some w2 →
      (i = tid ∧ w2 = w1) ∨ (i ≠ tid ∧ l[i]? = some w2) := by
  intro i w2 h
  by_cases hi : i = tid
  · subst hi
    rw [List.getElem?_set_eq_of_lt w1 hlt] at h
    exact Or.inl ⟨rfl, (Option.some_inj.mp h).symm⟩
  · right
    refine ⟨hi, ?_⟩
    rwa [List.getElem?_set_ne (fun hh => hi hh.symm)] at h

/-- Updating one entry of a list changes a mapped multiset sum by swapping
the entry's contribution. -/
theorem sum_map_set {γ : Type} (f : γ → Multiset α) :
    ∀ (l : List γ) (i : Nat) (w w1 : γ), l[i]? = some w →
      ((l.set i w1).map f).sum + f w = (l.map f).sum + f w1 := by
  intro l
  induction l with
  | nil =>
    intro i w w1 h
    simp at h
  | cons a t ih =>
    intro i w w1 h
    cases i with
    | zero =>
      simp only [List.getElem?_cons_zero, Option.some_inj] at h
      subst h
      simp only [List.set_cons_zero, List.map_cons, List.sum_cons]
      abel
    | succ j =>
      simp only [List.getElem?_cons_succ] at h
      simp only [List.set_cons_succ, List.map_cons, List.sum_cons]
      rw [add_assoc, ih j w w1 h, ← add_assoc]

/-- Conservation: a scheduler step neither creates nor destroys elements —
the source plus all workers' recorded and in-flight elements is invariant. -/
theorem workerStep_tokens (sys : TsgSystem α) (tid : Nat) :
    sysTokens (workerStep sys tid) = sysTokens sys := by
  unfold workerStep
  split
  · rfl
  next w hw =>
    by_cases hf : w.finished = true
    · rw [if_pos hf]
    · rw [if_neg hf]
      split
      next hp =>
        split
        · rfl
        next hlo =>
          simp only [sysTokens]
          have heq : workerTokens { w with phase := Phase.holding } = workerTokens w := by
            simp [workerTokens, inflight, hp]
          have hsum := sum_map_set workerTokens sys.workers tid w
            { w with phase := Phase.holding } hw
          rw [heq] at hsum
          rw [add_right_cancel hsum]
      next hp =>
        split
        next hs =>
          simp only [sysTokens]
          have heq : workerTokens { w with phase := Phase.fetched none } =
              workerTokens w := by
            simp [workerTokens, inflight, hp]
          have hsum := sum_map_set workerTokens sys.workers tid w
            { w with phase := Phase.fetched none } hw
          rw [heq] at hsum
          rw [add_right_cancel hsum, hs]
        next x rest hs =>
          simp only [sysTokens]
          have heq : workerTokens { w with phase := Phase.fetched (some x) } =
              workerTokens w + {x} := by
            simp [workerTokens, inflight, hp]
          have hsum := sum_map_set workerTokens sys.workers tid w
            { w with phase := Phase.fetched (some x) } hw
          rw [heq] at hsum
          have hsum2 : ((sys.workers.set tid
              { w with phase := Phase.fetched (some x) }).map workerTokens).sum =
              (sys.workers.map workerTokens).sum + {x} := by
            have hx : ((sys.workers.set tid
                { w with phase := Phase.fetched (some x) }).map workerTokens).sum +
                workerTokens w =
                ((sys.workers.map workerTokens).sum + {x}) + workerTokens w := by
              rw [hsum]
              abel
            exact add_right_cancel hx
          rw [hsum2, hs]
          have hcons : ((x :: rest : List α) : Multiset α) = {x} + (rest : Multiset α) := by
            rw [Multiset.singleton_add, Multiset.cons_coe]
          rw [hcons]
          abel
      next v hp =>
        cases v with
        | some x =>
          simp only [sysTokens]
          have heq : workerTokens
              { w with phase := Phase.idle, results := w.results ++ [x] } =
              workerTokens w := by
            simp only [workerTokens, inflight, hp]
            rw [show ((w.results ++ [x] : List α) : Multiset α) =
              (w.results : Multiset α) + {x} by rw [← Multiset.coe_add]; rfl]
            abel
          have hsum := sum_map_set workerTokens sys.workers tid w
            { w with phase := Phase.idle, results := w.results ++ [x] } hw
          rw [heq] at hsum
          rw [add_right_cancel hsum]
        | none =>
          simp only [sysTokens]
          have heq : workerTokens { w with phase := Phase.idle, finished := true } =
              workerTokens w := by
            simp [workerTokens, inflight, hp]
          have hsum := sum_map_set workerTokens sys.workers tid w
            { w with phase := Phase.idle, finished := true } hw
          rw [heq] at hsum
          rw [add_right_cancel hsum]

/-- A step never changes the number of workers. -/
theorem workerStep_length (sys : TsgSystem α) (tid : Nat) :
    (workerStep sys tid).workers.length = sys.workers.length := by
  unfold workerStep
  split
  · rfl
  next w hw =>
    by_cases hf : w.finished = true
    · rw [if_pos hf]
    · rw [if_neg hf]
      split
      next hp => split <;> simp [List.length_set]
      next hp => split <;> simp [List.length_set]
      next v hp => cases v <;> simp [List.length_set]

/-- Preservation: every scheduler step maintains the system invariant. -/
theorem workerStep_inv (sys : TsgSystem α) (tid : Nat) (h : SysInv sys) :
    SysInv (workerStep sys tid) := by
  obtain ⟨h1, h2, h3, h4, h5⟩ := h
  unfold workerStep
  split
  · exact ⟨h1, h2, h3, h4, h5⟩
  next w hw =>
    have hlt : tid < sys.workers.length := by
      rcases List.getElem?_eq_some.mp hw with ⟨hh, _⟩
      exact hh
    by_cases hf : w.finished = true
    · rw [if_pos hf]
      exact ⟨h1, h2, h3, h4, h5⟩
    · rw [if_neg hf]
      split
      next hp =>
        split
        · exact ⟨h1, h2, h3, h4, h5⟩
        next hlo =>
          refine ⟨?_, ?_, ?_, ?_, ?_⟩
          · intro i w2 hg hfin
            rcases getElem?_set_cases hlt i w2 hg with ⟨hi, rfl⟩ | ⟨hi, hg2⟩
            · exact absurd hfin hf
            · exact h1 i w2 hg2 hfin
          · intro i w2 hg hpf
            rcases getElem?_set_cases hlt i w2 hg with ⟨hi, rfl⟩ | ⟨hi, hg2⟩
            · exact absurd hpf (by simp)
            · exact h2 i w2 hg2 hpf
          · intro i w2 hg hfin
            rcases getElem?_set_cases hlt i w2 hg with ⟨hi, rfl⟩ | ⟨hi, hg2⟩
            · exact absurd hfin hf
            · exact h3 i w2 hg2 hfin
          · intro hcon
            exact Option.noConfusion hcon
          · intro t ht i w2 hg hni
            have htid := Option.some_inj.mp ht
            rcases getElem?_set_cases hlt i w2 hg with ⟨hi, rfl⟩ | ⟨hi, hg2⟩
            · exact hi.trans htid
            · exact absurd (h4 hlo i w2 hg2) hni
      next hp =>
        have howner : ∀ t, sys.lockOwner = some t → tid = t :=
          fun t ht => h5 t ht tid w hw (by rw [hp]; simp)
        have hlock_ne : sys.lockOwner ≠ none := by
          intro hcon
          exact absurd (h4 hcon tid w hw) (by rw [hp]; simp)
        split
        next hs =>
          refine ⟨?_, ?_, ?_, ?_, ?_⟩
          · intro i w2 hg hfin
            rcases getElem?_set_cases hlt i w2 hg with ⟨hi, rfl⟩ | ⟨hi, hg2⟩
            · exact absurd hfin hf
            · exact h1 i w2 hg2 hfin
          · intro i w2 hg hpf
            exact hs
          · intro i w2 hg hfin
            exact hs
          · intro hcon
            exact absurd hcon hlock_ne
          · intro t ht i w2 hg hni
            have htid := howner t ht
            rcases getElem?_set_cases hlt i w2 hg with ⟨hi, rfl⟩ | ⟨hi, hg2⟩
            · exact hi.trans htid
            · exact h5 t ht i w2 hg2 hni
        next x rest hs =>
          refine ⟨?_, ?_, ?_, ?_, ?_⟩
          · intro i w2 hg hfin
            rcases getElem?_set_cases hlt i w2 hg with ⟨hi, rfl⟩ | ⟨hi, hg2⟩
            · exact absurd hfin hf
            · exact h1 i w2 hg2 hfin
          · intro i w2 hg hpf
            rcases getElem?_set_cases hlt i w2 hg with ⟨hi, rfl⟩ | ⟨hi, hg2⟩
            · exact absurd hpf (by simp)
            · have hsrc := h2 i w2 hg2 hpf
              rw [hs] at hsrc
              simp at hsrc
          · intro i w2 hg hfin
            rcases getElem?_set_cases hlt i w2 hg with ⟨hi, rfl⟩ | ⟨hi, hg2⟩
            · exact absurd hfin hf
            · have hsrc := h3 i w2 hg2 hfin
              rw [hs] at hsrc
              simp at hsrc
          · intro hcon
            exact absurd hcon hlock_ne
          · intro t ht i w2 hg hni
            have htid := howner t ht
            rcases getElem?_set_cases hlt i w2 hg with ⟨hi, rfl⟩ | ⟨hi, hg2⟩
            · exact hi.trans htid
            · exact h5 t ht i w2 hg2 hni
      next v hp =>
        have howner : ∀ t, sys.lockOwner = some t → tid = t :=
          fun t ht => h5 t ht tid w hw (by rw [hp]; simp)
        cases v with
        | some x =>
          refine ⟨?_, ?_, ?_, ?_, ?_⟩
          · intro i w2 hg hfin
            rcases getElem?_set_cases hlt i w2 hg with ⟨hi, rfl⟩ | ⟨hi, hg2⟩
            · exact absurd hfin hf
            · exact h1 i w2 hg2 hfin
          · intro i w2 hg hpf
            rcases getElem?_set_cases hlt i w2 hg with ⟨hi, rfl⟩ | ⟨hi, hg2⟩
            · exact absurd hpf (by simp)
            · exact h2 i w2 hg2 hpf
          · intro i w2 hg hfin
            rcases getElem?_set_cases hlt i w2 hg with ⟨hi, rfl⟩ | ⟨hi, hg2⟩
            · exact absurd hfin hf
            · exact h3 i w2 hg2 hfin
          · intro hcon2 i w2 hg
            rcases getElem?_set_cases hlt i w2 hg with ⟨hi, rfl⟩ | ⟨hi, hg2⟩
            · rfl
            · cases hlo2 : sys.lockOwner with
              | none => exact h4 hlo2 i w2 hg2
              | some t =>
                have htid := howner t hlo2
                by_contra hni
                have hit := h5 t hlo2 i w2 hg2 hni
                omega
          · intro t ht
            exact Option.noConfusion ht
        | none =>
          have hsrc : sys.source = [] := h2 tid w hw hp
          refine ⟨?_, ?_, ?_, ?_, ?_⟩
          · intro i w2 hg hfin
            rcases getElem?_set_cases hlt i w2 hg with ⟨hi, rfl⟩ | ⟨hi, hg2⟩
            · rfl
            · exact h1 i w2 hg2 hfin
          · intro i w2 hg hpf
            rcases getElem?_set_cases hlt i w2 hg with ⟨hi, rfl⟩ | ⟨hi, hg2⟩
            · exact absurd hpf (by simp)
            · exact h2 i w2 hg2 hpf
          · intro i w2 hg hfin
            exact hsrc
          · intro hcon2 i w2 hg
            rcases getElem?_set_cases hlt i w2 hg with ⟨hi, rfl⟩ | ⟨hi, hg2⟩
            · rfl
            · cases hlo2 : sys.lockOwner with
              | none => exact h4 hlo2 i w2 hg2
              | some t =>
                have htid := howner t hlo2
                by_contra hni
                have hit := h5 t hlo2 i w2 hg2 hni
                omega
          · intro t ht
            exact Option.noConfusion ht

/-- The initial system satisfies the invariant. -/
theorem initSystem_inv (T : Nat) (vals : List α) : SysInv (initSystem T vals) := by
  have hval : ∀ (i : Nat) (w : Worker α),
      (initSystem T vals).workers[i]? = some w →
        w = ⟨Phase.idle, [], false⟩ := by
    intro i w hg
    rw [show (initSystem T vals).workers =
      List.replicate T ⟨Phase.idle, [], false⟩ from rfl, List.getElem?_replicate] at hg
    by_cases hi : i < T
    · rw [if_pos hi] at hg
      exact (Option.some_inj.mp hg).symm
    · rw [if_neg hi] at hg
      exact Option.noConfusion hg
  refine ⟨?_, ?_, ?_, ?_, ?_⟩
  · intro i w hg hfin
    rw [hval i w hg] at hfin
    simp at hfin
  · intro i w hg hpf
    rw [hval i w hg] at hpf
    simp at hpf
  · intro i w hg hfin
    rw [hval i w hg] at hfin
    simp at hfin
  · intro _ i w hg
    rw [hval i w hg]
  · intro t ht
    exact Option.noConfusion ht

/-- The invariant holds after any schedule from an invariant state. -/
theorem runSched_inv (sched : List Nat) :
    ∀ sys : TsgSystem α, SysInv sys → SysInv (runSched sys sched) := by
  induction sched with
  | nil => intro sys h; exact h
  | cons t ts ih => intro sys h; exact ih _ (workerStep_inv sys t h)

/-- Conservation along any schedule. -/
theorem runSched_tokens (sched : List Nat) :
    ∀ sys : TsgSystem α, sysTokens (runSched sys sched) = sysTokens sys := by
  induction sched with
  | nil => intro sys; rfl
  | cons t ts ih => intro sys; rw [show runSched sys (t :: ts) =
      runSched (workerStep sys t) ts from rfl, ih, workerStep_tokens]

/-- Worker count along any schedule. -/
theorem runSched_length (sched : List Nat) :
    ∀ sys : TsgSystem α, (runSched sys sched).workers.length = sys.workers.length := by
  induction sched with
  | nil => intro sys; rfl
  | cons t ts ih => intro sys; rw [show runSched sys (t :: ts) =
      runSched (workerStep sys t) ts from rfl, ih, workerStep_length]

/-- The invariant implies mutual exclusion: at most one worker is inside
its critical section. -/
theorem sysInv_mutex (sys : TsgSystem α) (h : SysInv sys) : mutexOK sys := by
  obtain ⟨h1, h2, h3, h4, h5⟩ := h
  intro i j wi wj hgi hgj hni hnj
  cases hlo : sys.lockOwner with
  | none => exact absurd (h4 hlo i wi hgi) hni
  | some t =>
    have hi := h5 t hlo i wi hgi hni
    have hj := h5 t hlo j wj hgj hnj
    omega

/-- Claim C10: for every source of values wrapped in one `ThreadSafeGen`
and drained concurrently by `T` worker threads under an arbitrary schedule,
if the run ends with every thread finished (each has seen the source
exhausted), the threads collectively obtained all the source values exactly
once — the multiset union of their results equals the source, no value
duplicated, no value skipped — and along every prefix of the schedule no
two threads are ever inside the lock-protected advance concurrently. -/
theorem tsg_concurrent_exactly_once (vals : List α) (T : Nat) (sched : List Nat)
    (hT : 0 < T)
    (hfin : ∀ w ∈ (runSched (initSystem T vals) sched).workers, w.finished = true) :
    ((runSched (initSystem T vals) sched).workers.map
        fun w => (w.results : Multiset α)).sum = (vals : Multiset α) ∧
    (∀ p q : List Nat, sched = p ++ q → mutexOK (runSched (initSystem T vals) p)) := by
  obtain ⟨h1, h2, h3, h4, h5⟩ :=
    runSched_inv sched (initSystem T vals) (initSystem_inv T vals)
  constructor
  · have hlen : (runSched (initSystem T vals) sched).workers.length = T := by
      rw [runSched_length]
      simp [initSystem]
    have hne : (runSched (initSystem T vals) sched).workers ≠ [] := by
      intro hcon
      rw [hcon] at hlen
      simp at hlen
      omega
    obtain ⟨w0, hw0⟩ :=
      List.exists_mem_of_ne_nil (runSched (initSystem T vals) sched).workers hne
    obtain ⟨i0, hg0⟩ := List.getElem?_of_mem hw0
    have hsrc : (runSched (initSystem T vals) sched).source = [] :=
      h3 i0 w0 hg0 (hfin w0 hw0)
    have htok : sysTokens (runSched (initSystem T vals) sched) = (vals : Multiset α) := by
      rw [runSched_tokens]
      unfold sysTokens initSystem
      simp [workerTokens, inflight, List.map_replicate, List.sum_replicate]
    have hcongr : (runSched (initSystem T vals) sched).workers.map workerTokens =
        (runSched (initSystem T vals) sched).workers.map
          fun w => (w.results : Multiset α) := by
      apply List.map_congr_left
      intro w hwmem
      obtain ⟨i, hgi⟩ := List.getElem?_of_mem hwmem
      have hidle := h1 i w hgi (hfin w hwmem)
      unfold workerTokens inflight
      rw [hidle]
      simp
    unfold sysTokens at htok
    rw [hsrc, hcongr] at htok
    simpa using htok
  · intro p q hpq
    exact sysInv_mutex _ (runSched_inv p (initSystem T vals) (initSystem_inv T vals))

/-- A concrete schedule for two workers and three values: each thread
repeatedly acquires, advances, and releases; thread 0 takes values 0 and 2,
thread 1 takes value 1, then both observe exhaustion and finish. -/
def schedTwoThree : List Nat :=
  [0, 0, 0, 1, 1, 1, 0, 0, 0, 1, 1, 1, 0, 0, 0]

/-- Witness for C10: two threads drain the three-value source under the
concrete interleaving `schedTwoThree`; every thread finishes and the
multiset of all collected values is exactly the source. -/
theorem tsg_concurrent_exactly_once_witness :
    (0 < 2) ∧
    (∀ w ∈ (runSched (initSystem 2 [0, 1, 2]) schedTwoThree).workers,
      w.finished = true) ∧
    ((runSched (initSystem 2 [0, 1, 2]) schedTwoThree).workers.map
        fun w => (w.results : Multiset Nat)).sum = (([0, 1, 2] : List Nat) : Multiset Nat) :=
  ⟨by decide, by decide,
    (tsg_concurrent_exactly_once [0, 1, 2] 2 schedTwoThree (by decide) (by decide)).1⟩
